import Mathlib

/-
  Verification development for the private-join-and-compute crypto core:
  a shallow embedding of the EC commutative cipher
  (src/crypto/ec_commutative_cipher.h) and the fixed-base modular
  exponentiation engine (src/crypto/fixed_base_exp.h).

  Only the headers of this repository are available; the method bodies
  live in .cc files that are not part of src/.  Every operation body is
  therefore modelled from the spec (spec.md), faithful to its words, and
  each such definition carries a doc comment starting
  "Modelled from the spec:".

  Modelling choices:
  * The elliptic-curve group of prime order n is modelled as the additive
    group `ZMod n` in discrete-log coordinates: a curve point is an
    element of `ZMod n`, and scalar multiplication of a point by a
    scalar k is multiplication by k in the ring `ZMod n`.  This captures
    exactly the group-theoretic structure the spec relies on (a cyclic
    group of order n on which scalars act mod n, with every nonzero
    scalar invertible for prime n).
  * Byte strings are `List Nat`, with each entry intended in `[0, 256)`.
  * `StatusOr<T>` is `Except Status T` with the two error kinds of the
    spec (invalid-argument, internal).
-/

namespace PrivateJoinAndCompute

/-- Modelled from the spec: the two error kinds of the error handling
design (§7): invalid-argument and internal. -/
inductive Status where
  | invalidArgument
  | internal
deriving DecidableEq, Repr

/-- Big-endian interpretation of a byte string as a natural number
(capability of the external big-integer module, spec §6). -/
def bytesToNat : List Nat → Nat
  | [] => 0
  | d :: rest => d * 256 ^ rest.length + bytesToNat rest

/-- Fixed-width big-endian encoding of a natural number on `L` bytes
(capability of the external big-integer module, spec §6). -/
def natToBE : Nat → Nat → List Nat
  | 0, _ => []
  | L + 1, v => natToBE L (v / 256) ++ [v % 256]

/-- Byte-length of a natural number: the number of base-256 digits needed
to write `v`. The first argument is recursion fuel; `fuel ≥ v` always
suffices since the value shrinks by a factor 256 each step. -/
def byteLen : Nat → Nat → Nat
  | 0, _ => 1
  | fuel + 1, v => if v < 256 then 1 else byteLen fuel (v / 256) + 1

/-- The curve order's byte-length: the width of the fixed-width scalar
encoding for a curve of order `n` (spec §6). -/
def orderByteLen (n : Nat) : Nat :=
  byteLen n n

/-- Modelled from the spec: decoding of caller-supplied private-key bytes
(§6): a fixed-width big-endian scalar, rejected if the length is wrong or
the value decodes to `0` or to a value `>= n`. -/
def scalarDecode (n : Nat) (keyBytes : List Nat) : Option Nat :=
  if keyBytes.length = orderByteLen n then
    let k := bytesToNat keyBytes
    if k = 0 ∨ n ≤ k then none else some k
  else none

/-- Modelled from the spec: the compressed point encoding (§6) — one
prefix byte followed by the fixed-width big-endian coordinate of the
point.  In discrete-log coordinates the encoded coordinate is the point's
canonical value `P.val`. -/
def pointEncode (n : Nat) (P : ZMod n) : List Nat :=
  2 :: natToBE (orderByteLen n) P.val

/-- Modelled from the spec: decoding of a compressed point encoding (§6);
fails on any byte string that is not a valid compressed encoding of a
point on the bound curve (wrong prefix, wrong length, out-of-range
coordinate). -/
def pointDecode (n : Nat) (b : List Nat) : Option (ZMod n) :=
  match b with
  | tag :: rest =>
      if tag = 2 ∧ rest.length = orderByteLen n ∧ bytesToNat rest < n then
        some ((bytesToNat rest : Nat) : ZMod n)
      else none
  | [] => none

/-- Modelled from the spec: the external hash-to-curve capability (§6,
glossary): a deterministic mapping from arbitrary byte strings to points
on the curve.  Any concrete deterministic map into the group serves the
model; the development only uses that it is a function of the plaintext. -/
def hashToCurve (n : Nat) (plaintext : List Nat) : ZMod n :=
  ((bytesToNat plaintext : Nat) : ZMod n)

/-- The ECCommutativeCipher state (ec_commutative_cipher.h lines 174-183):
the private key scalar and its modular inverse, both bound to a curve of
order `n`.  The scratch context and group handle carry no observable
state and are omitted. -/
structure ECCommutativeCipher (n : Nat) where
  private_key : ZMod n
  private_key_inverse : ZMod n

/-- The key invariant every constructed cipher satisfies (spec §3): the
stored inverse is the modular inverse of the stored key. -/
def ECCommutativeCipher.KeyInvariant {n : Nat} (c : ECCommutativeCipher n) : Prop :=
  c.private_key * c.private_key_inverse = 1

instance {n : Nat} (c : ECCommutativeCipher n) : Decidable c.KeyInvariant := by
  unfold ECCommutativeCipher.KeyInvariant
  infer_instance

/-- Modelled from the spec: `k^-1 mod n`, computed once at construction
(§3, §4.1) via the extended Euclidean algorithm of the external
big-integer module. -/
def modInverse (n k : Nat) : ZMod n :=
  ((Nat.gcdA k n : Int) : ZMod n)

/-- Modelled from the spec: `CreateFromKey(curveId, keyBytes)` (§4.1)
decodes `keyBytes` as a fixed-width scalar, fails with invalid-argument
if the scalar is zero, `>= n` or of wrong length, and otherwise stores
the scalar and its inverse mod `n`. -/
def CreateFromKey (n : Nat) (keyBytes : List Nat) :
    Except Status (ECCommutativeCipher n) :=
  match scalarDecode n keyBytes with
  | none => .error .invalidArgument
  | some k => .ok ⟨(k : ZMod n), modInverse n k⟩

/-- Modelled from the spec: `Encrypt(plaintext)` (§4.1) hashes the
plaintext to a curve point, multiplies the point by the private key, and
returns the compressed encoding.  No per-call randomness. -/
def Encrypt {n : Nat} (c : ECCommutativeCipher n) (plaintext : List Nat) :
    List Nat :=
  pointEncode n (c.private_key * hashToCurve n plaintext)

/-- Modelled from the spec: `ReEncrypt(ciphertext)` (§4.1) decodes the
ciphertext as an already-on-curve point (no hashing), multiplies by the
private key, and re-encodes; invalid encodings are rejected. -/
def ReEncrypt {n : Nat} (c : ECCommutativeCipher n) (ciphertext : List Nat) :
    Except Status (List Nat) :=
  match pointDecode n ciphertext with
  | none => .error .invalidArgument
  | some point => .ok (pointEncode n (c.private_key * point))

/-- Modelled from the spec: `Decrypt(ciphertext)` (§4.1) decodes the
point, multiplies by the stored key inverse, and re-encodes; invalid
encodings are rejected. -/
def Decrypt {n : Nat} (c : ECCommutativeCipher n) (ciphertext : List Nat) :
    Except Status (List Nat) :=
  match pointDecode n ciphertext with
  | none => .error .invalidArgument
  | some point => .ok (pointEncode n (c.private_key_inverse * point))

/-- Modelled from the spec: `ReEncryptElGamalCiphertext((c1, c2))` (§4.1)
decodes both components as points, multiplies both by the private key,
and re-encodes both; the whole operation fails unless both components
decode. -/
def ReEncryptElGamalCiphertext {n : Nat} (c : ECCommutativeCipher n)
    (elgamal_ciphertext : List Nat × List Nat) :
    Except Status (List Nat × List Nat) :=
  match pointDecode n elgamal_ciphertext.1, pointDecode n elgamal_ciphertext.2 with
  | some p1, some p2 =>
      .ok (pointEncode n (c.private_key * p1), pointEncode n (c.private_key * p2))
  | _, _ => .error .invalidArgument

/-- Modelled from the spec: `GetPrivateKeyBytes()` (§4.1) serializes the
key in the same canonical fixed-width encoding accepted by
`CreateFromKey`. -/
def GetPrivateKeyBytes {n : Nat} (c : ECCommutativeCipher n) : List Nat :=
  natToBE (orderByteLen n) c.private_key.val

/-- Modelled from the spec: the original ElGamal decryption process (§3):
for a ciphertext `(c1, c2) = (r·G, m + r·Y)` with secret key `x` (so
`Y = x·G`), recover the message point as `c2 - x·c1`. -/
def elgamalDecrypt {n : Nat} (x : ZMod n) (ct : ZMod n × ZMod n) : ZMod n :=
  ct.2 - x * ct.1

/-- The FixedBaseExp state (fixed_base_exp.h lines 40-60): a fixed base
and modulus, the strategy selected at construction (the `two_k_ary_exp`
flag, line 28), and the window size `w` of the windowed strategy.  The
precomputed table is a derived cache keyed by `(base, modulus)` and is
semantically determined by these fields. -/
structure FixedBaseExp where
  fixed_base : Nat
  modulus : Nat
  two_k_ary : Bool
  window : Nat

/-- Modelled from the spec: the baseline exponentiation strategy (§4.2),
the correctness reference: `base^e mod modulus` directly. -/
def baselineExp (base modulus e : Nat) : Nat :=
  base ^ e % modulus

/-- Modelled from the spec: the online phase of the windowed (2^k-ary)
strategy (§4.2): decompose the exponent into base-`W` digits (`W = 2^w`,
least significant digit first), and for digit `d` at window position
`pos` multiply in the precomputed value `base^(d · W^pos) mod modulus`.
The first argument is recursion fuel; `fuel ≥ e` always suffices since
the remaining exponent shrinks by a factor `W ≥ 2` each step. -/
def windowedExpAux (base modulus W : Nat) : Nat → Nat → Nat → Nat
  | 0, _, _ => 1 % modulus
  | fuel + 1, pos, e =>
      if e = 0 then 1 % modulus
      else
        base ^ (e % W * W ^ pos) % modulus *
            windowedExpAux base modulus W fuel (pos + 1) (e / W) % modulus

/-- Modelled from the spec: the windowed (2^k-ary) exponentiation
strategy (§4.2) with window size `w` bits. -/
def windowedExp (base modulus w e : Nat) : Nat :=
  windowedExpAux base modulus (2 ^ w) e 0 e

/-- Modelled from the spec: `ModExp(exp)` (fixed_base_exp.h lines 48-50,
spec §4.2): fails with invalid-argument if the exponent is negative,
otherwise computes `base^exp mod modulus` with the strategy selected at
construction. -/
def FixedBaseExp.ModExp (f : FixedBaseExp) (exp : Int) : Except Status Nat :=
  if exp < 0 then .error .invalidArgument
  else if f.two_k_ary then .ok (windowedExp f.fixed_base f.modulus f.window exp.toNat)
  else .ok (baselineExp f.fixed_base f.modulus exp.toNat)

/-- Modelled from the spec: `GetFixedBaseExp(base, modulus)`
(fixed_base_exp.h lines 52-54, spec §4.2, §9): builds the group/ring
context and the precomputed table eagerly at construction.  `ctxOk`
models the outcome of the underlying arithmetic library's attempt to
build the context for the modulus (the only thing that can fail): when
it fails, construction itself fails with an internal condition and no
instance is produced. -/
def GetFixedBaseExp (ctxOk : Bool) (fixed_base modulus : Nat)
    (two_k_ary : Bool) (window : Nat) : Except Status FixedBaseExp :=
  if ctxOk then .ok ⟨fixed_base, modulus, two_k_ary, window⟩
  else .error .internal

/-! ### Helper lemmas on the byte encodings -/

theorem natToBE_length (L v : Nat) : (natToBE L v).length = L := by
  induction L generalizing v with
  | zero => simp [natToBE]
  | succ L ih => simp [natToBE, ih]

theorem bytesToNat_append_singleton (xs : List Nat) (d : Nat) :
    bytesToNat (xs ++ [d]) = 256 * bytesToNat xs + d := by
  induction xs with
  | nil => simp [bytesToNat]
  | cons x xs ih =>
      show x * 256 ^ (xs ++ [d]).length + bytesToNat (xs ++ [d]) =
        256 * (x * 256 ^ xs.length + bytesToNat xs) + d
      rw [ih, List.length_append]
      simp only [List.length_cons, List.length_nil]
      ring

theorem bytesToNat_natToBE (L v : Nat) (h : v < 256 ^ L) :
    bytesToNat (natToBE L v) = v := by
  induction L generalizing v with
  | zero =>
      simp only [pow_zero, Nat.lt_one_iff] at h
      simp [natToBE, bytesToNat, h]
  | succ L ih =>
      have hdiv : v / 256 < 256 ^ L := by
        rw [Nat.div_lt_iff_lt_mul (by norm_num : 0 < 256)]
        calc v < 256 ^ (L + 1) := h
        _ = 256 ^ L * 256 := by ring
      simp only [natToBE, bytesToNat_append_singleton, ih _ hdiv]
      omega

theorem natToBE_bytesToNat (bs : List Nat) (hb : ∀ d ∈ bs, d < 256) :
    natToBE bs.length (bytesToNat bs) = bs := by
  induction bs using List.reverseRecOn with
  | nil => simp [natToBE, bytesToNat]
  | append_singleton xs d ih =>
      have hd : d < 256 := hb d (by simp)
      have hxs : ∀ x ∈ xs, x < 256 := fun x hx => hb x (by simp [hx])
      simp only [List.length_append, List.length_cons, List.length_nil,
        bytesToNat_append_singleton, natToBE]
      have h1 : (256 * bytesToNat xs + d) / 256 = bytesToNat xs := by
        omega
      have h2 : (256 * bytesToNat xs + d) % 256 = d := by
        omega
      rw [h1, h2, ih hxs]

theorem lt_pow_byteLen (fuel v : Nat) (h : v ≤ fuel) :
    v < 256 ^ byteLen fuel v := by
  induction fuel generalizing v with
  | zero =>
      have : v = 0 := Nat.le_zero.mp h
      simp [byteLen, this]
  | succ fuel ih =>
      by_cases hv : v < 256
      · simp [byteLen, hv]
      · have hpos : 0 < v := by omega
        have hdivle : v / 256 ≤ fuel := by omega
        have hrec := ih (v / 256) hdivle
        have hstep : v < 256 * (v / 256 + 1) := by omega
        have hmul : 256 * (v / 256 + 1) ≤ 256 * 256 ^ byteLen fuel (v / 256) :=
          Nat.mul_le_mul le_rfl hrec
        simp only [byteLen, if_neg (by omega : ¬ v < 256)]
        calc v < 256 * (v / 256 + 1) := hstep
          _ ≤ 256 * 256 ^ byteLen fuel (v / 256) := hmul
          _ = 256 ^ (byteLen fuel (v / 256) + 1) := by ring

theorem lt_pow_orderByteLen (n : Nat) : n < 256 ^ orderByteLen n :=
  lt_pow_byteLen n n le_rfl

theorem pointDecode_pointEncode (n : Nat) (hn : 0 < n) (P : ZMod n) :
    pointDecode n (pointEncode n P) = some P := by
  haveI : NeZero n := ⟨hn.ne'⟩
  have hval : P.val < n := ZMod.val_lt P
  have hlt : P.val < 256 ^ orderByteLen n := hval.trans (lt_pow_orderByteLen n)
  simp [pointEncode, pointDecode, natToBE_length, bytesToNat_natToBE _ _ hlt,
    hval, ZMod.natCast_val, ZMod.cast_id]

/-- Inversion of a successful point decode: the byte string is a tag-2
compressed encoding of a coordinate in range, and the decoded point is
that coordinate. -/
theorem pointDecode_eq_some (n : Nat) (b : List Nat) (P : ZMod n)
    (h : pointDecode n b = some P) :
    ∃ rest, b = 2 :: rest ∧ rest.length = orderByteLen n ∧
      bytesToNat rest < n ∧ P = ((bytesToNat rest : Nat) : ZMod n) := by
  match b with
  | [] => exact absurd h (by simp [pointDecode])
  | tag :: rest =>
      by_cases hc : tag = 2 ∧ rest.length = orderByteLen n ∧ bytesToNat rest < n
      · refine ⟨rest, ?_, hc.2.1, hc.2.2, ?_⟩
        · rw [hc.1]
        · have := h
          simp only [pointDecode, if_pos hc, Option.some_inj] at this
          exact this.symm
      · exact absurd h (by simp [pointDecode, if_neg hc])

/-- A successful point decode of a genuine byte string (entries below
256) is inverted exactly by `pointEncode`. -/
theorem pointEncode_pointDecode (n : Nat) (b : List Nat)
    (P : ZMod n) (hdec : pointDecode n b = some P)
    (hb : ∀ d ∈ b, d < 256) :
    pointEncode n P = b := by
  obtain ⟨rest, hb2, hlen, hlt, hP⟩ := pointDecode_eq_some n b P hdec
  have hrest : ∀ d ∈ rest, d < 256 := fun d hd => hb d (by simp [hb2, hd])
  have hval : P.val = bytesToNat rest := by
    rw [hP, ZMod.val_cast_of_lt hlt]
  rw [pointEncode, hval, hb2, ← hlen, natToBE_bytesToNat rest hrest]

/-! ### Correctness of the windowed exponentiation strategy -/

theorem windowedExpAux_eq (base modulus W : Nat) (hW : 2 ≤ W) :
    ∀ fuel pos e, e ≤ fuel →
      windowedExpAux base modulus W fuel pos e = base ^ (e * W ^ pos) % modulus := by
  intro fuel
  induction fuel with
  | zero =>
      intro pos e he
      have : e = 0 := Nat.le_zero.mp he
      simp [windowedExpAux, this]
  | succ fuel ih =>
      intro pos e he
      by_cases h0 : e = 0
      · simp [windowedExpAux, h0]
      · have hdiv : e / W < e := Nat.div_lt_self (Nat.pos_of_ne_zero h0) (by omega)
        have hdivle : e / W ≤ fuel := by omega
        have hexp : e % W * W ^ pos + e / W * W ^ (pos + 1) = e * W ^ pos := by
          calc e % W * W ^ pos + e / W * W ^ (pos + 1)
              = (e % W + e / W * W) * W ^ pos := by ring
            _ = e * W ^ pos := by rw [Nat.mod_add_div']
        simp only [windowedExpAux, if_neg h0, ih (pos + 1) (e / W) hdivle]
        rw [← Nat.mul_mod, ← pow_add, hexp]

theorem windowedExp_eq_baselineExp (base modulus w e : Nat) (hw : 0 < w) :
    windowedExp base modulus w e = baselineExp base modulus e := by
  have hW : 2 ≤ 2 ^ w := by
    calc 2 = 2 ^ 1 := (pow_one 2).symm
      _ ≤ 2 ^ w := Nat.pow_le_pow_right (by omega) hw
  unfold windowedExp baselineExp
  rw [windowedExpAux_eq base modulus (2 ^ w) hW e 0 e le_rfl]
  simp

/-! ### The claims -/

/-- C1: Commutativity of the cipher — for two cipher instances with keys
`k1`, `k2` on the same curve and any plaintext `p`, re-encrypting
`Encrypt_k1(p)` with `k2` yields the same byte string as re-encrypting
`Encrypt_k2(p)` with `k1`. -/
theorem encrypt_then_reEncrypt_commutes (n : Nat) (hn : 0 < n)
    (c1 c2 : ECCommutativeCipher n) (p : List Nat) :
    ReEncrypt c2 (Encrypt c1 p) = ReEncrypt c1 (Encrypt c2 p) := by
  simp only [ReEncrypt, Encrypt, pointDecode_pointEncode n hn]
  rw [mul_left_comm]

theorem encrypt_then_reEncrypt_commutes_witness :
    ReEncrypt (⟨2, 4⟩ : ECCommutativeCipher 7)
        (Encrypt (⟨3, 5⟩ : ECCommutativeCipher 7) [104, 105]) =
      ReEncrypt (⟨3, 5⟩ : ECCommutativeCipher 7)
        (Encrypt (⟨2, 4⟩ : ECCommutativeCipher 7) [104, 105]) :=
  encrypt_then_reEncrypt_commutes 7 (by decide) (⟨3, 5⟩ : ECCommutativeCipher 7)
    (⟨2, 4⟩ : ECCommutativeCipher 7) [104, 105]

/-- C2: Round-trip through one key — for every cipher instance,
`Decrypt(Encrypt(p))` succeeds and returns the compressed encoding of
the hash-to-curve point of `p`, not `p` itself: the hash-to-curve step
is not reversed. -/
theorem decrypt_encrypt_recovers_hashed_point (n : Nat) (hn : 0 < n)
    (c : ECCommutativeCipher n) (hk : c.KeyInvariant) (p : List Nat) :
    Decrypt c (Encrypt c p) = .ok (pointEncode n (hashToCurve n p)) := by
  simp only [Decrypt, Encrypt, pointDecode_pointEncode n hn]
  have h : c.private_key_inverse * (c.private_key * hashToCurve n p) =
      hashToCurve n p := by
    rw [← mul_assoc, mul_comm c.private_key_inverse, hk, one_mul]
  rw [h]

theorem decrypt_encrypt_recovers_hashed_point_witness :
    Decrypt (⟨3, 5⟩ : ECCommutativeCipher 7)
        (Encrypt (⟨3, 5⟩ : ECCommutativeCipher 7) [104, 105]) =
      .ok (pointEncode 7 (hashToCurve 7 [104, 105])) :=
  decrypt_encrypt_recovers_hashed_point 7 (by decide)
    (⟨3, 5⟩ : ECCommutativeCipher 7) (by decide) [104, 105]

/-- C3: ModExp contract — for a FixedBaseExp as built at construction
(positive window), `ModExp(exp)` fails with an invalid-argument error
exactly when `exp` is negative, and otherwise returns
`base^exp mod modulus`; it fails in no other case. -/
theorem modExp_contract (f : FixedBaseExp) (hw : 0 < f.window) (exp : Int) :
    f.ModExp exp = if exp < 0 then .error .invalidArgument
      else .ok (f.fixed_base ^ exp.toNat % f.modulus) := by
  unfold FixedBaseExp.ModExp
  by_cases h : exp < 0
  · simp [h]
  · by_cases ht : f.two_k_ary
    · simp [h, ht, windowedExp_eq_baselineExp _ _ _ _ hw, baselineExp]
    · simp [h, ht, baselineExp]

theorem modExp_contract_witness :
    FixedBaseExp.ModExp ⟨3, 10, true, 2⟩ 5 =
      (if (5 : Int) < 0 then .error .invalidArgument
        else .ok (3 ^ (5 : Int).toNat % 10)) :=
  modExp_contract ⟨3, 10, true, 2⟩ (by decide) 5

/-- C4: ElGamal homomorphism — for a valid ElGamal pair encrypting a
message point `m`, `ReEncryptElGamalCiphertext` decodes both components,
multiplies both by the private key `k` and re-encodes both, and the
resulting pair decrypts (by the original ElGamal decryption process with
the same secret key) to `k·m`. -/
theorem reEncryptElGamalCiphertext_homomorphism (n : Nat)
    (c : ECCommutativeCipher n) (ct : List Nat × List Nat)
    (x m p1 p2 : ZMod n)
    (h1 : pointDecode n ct.1 = some p1) (h2 : pointDecode n ct.2 = some p2)
    (hm : elgamalDecrypt x (p1, p2) = m) :
    ReEncryptElGamalCiphertext c ct =
        .ok (pointEncode n (c.private_key * p1), pointEncode n (c.private_key * p2)) ∧
      elgamalDecrypt x (c.private_key * p1, c.private_key * p2) =
        c.private_key * m := by
  constructor
  · simp [ReEncryptElGamalCiphertext, h1, h2]
  · simp only [elgamalDecrypt] at hm ⊢
    rw [← hm]
    ring

theorem reEncryptElGamalCiphertext_homomorphism_witness :
    ReEncryptElGamalCiphertext (⟨3, 5⟩ : ECCommutativeCipher 7)
          (pointEncode 7 2, pointEncode 7 6) =
        .ok (pointEncode 7 ((3 : ZMod 7) * 2), pointEncode 7 ((3 : ZMod 7) * 6)) ∧
      elgamalDecrypt (4 : ZMod 7) ((3 : ZMod 7) * 2, (3 : ZMod 7) * 6) =
        (3 : ZMod 7) * 5 :=
  reEncryptElGamalCiphertext_homomorphism 7 ⟨3, 5⟩
    (pointEncode 7 2, pointEncode 7 6) 4 5 2 6 (by decide) (by decide) (by decide)

/-- C5: Determinism of Encrypt — `Encrypt` is a pure function of the
stored private key and the plaintext: any two cipher instances on the
same curve holding the same key produce byte-identical ciphertexts for
the same plaintext, with no per-call randomness. -/
theorem encrypt_deterministic (n : Nat) (c c' : ECCommutativeCipher n)
    (p : List Nat) (hkey : c.private_key = c'.private_key) :
    Encrypt c p = Encrypt c' p := by
  simp [Encrypt, hkey]

theorem encrypt_deterministic_witness :
    Encrypt (⟨3, 5⟩ : ECCommutativeCipher 7) [104, 105] =
      Encrypt (⟨3, 3⟩ : ECCommutativeCipher 7) [104, 105] :=
  encrypt_deterministic 7 ⟨3, 5⟩ ⟨3, 3⟩ [104, 105] (by decide)

/-- C6: CreateFromKey rejection — any key byte string that decodes to
zero, decodes to a value `≥ n`, or has a length different from the
curve's order byte-length makes `CreateFromKey` fail with an
invalid-argument error, producing no cipher instance. -/
theorem createFromKey_rejects_invalid_key_bytes (n : Nat)
    (keyBytes : List Nat)
    (h : bytesToNat keyBytes = 0 ∨ n ≤ bytesToNat keyBytes ∨
      keyBytes.length ≠ orderByteLen n) :
    CreateFromKey n keyBytes = .error .invalidArgument := by
  by_cases hlen : keyBytes.length = orderByteLen n
  · have hbad : bytesToNat keyBytes = 0 ∨ n ≤ bytesToNat keyBytes := by
      rcases h with h | h | h
      · exact Or.inl h
      · exact Or.inr h
      · exact absurd hlen h
    simp [CreateFromKey, scalarDecode, hlen, hbad]
  · simp [CreateFromKey, scalarDecode, hlen]

theorem createFromKey_rejects_invalid_key_bytes_witness :
    CreateFromKey 7 [0] = .error .invalidArgument :=
  createFromKey_rejects_invalid_key_bytes 7 [0] (Or.inl (by decide))

/-- C7: Key persistence round-trip — for every cipher instance `c`,
`CreateFromKey` applied to `c.GetPrivateKeyBytes()` succeeds and
produces a cipher that returns the same ciphertext as `c` for every
plaintext. -/
theorem createFromKey_getPrivateKeyBytes_roundtrip (n : Nat) (hn : 0 < n)
    (c : ECCommutativeCipher n) (hk : c.private_key ≠ 0) :
    ∃ c', CreateFromKey n (GetPrivateKeyBytes c) = .ok c' ∧
      ∀ p, Encrypt c' p = Encrypt c p := by
  haveI : NeZero n := ⟨hn.ne'⟩
  have hval : c.private_key.val < n := ZMod.val_lt _
  have hvne : c.private_key.val ≠ 0 := by
    simpa [ZMod.val_eq_zero] using hk
  have hlt : c.private_key.val < 256 ^ orderByteLen n :=
    hval.trans (lt_pow_orderByteLen n)
  have hcond : ¬ (c.private_key.val = 0 ∨ n ≤ c.private_key.val) := by
    push_neg
    exact ⟨hvne, hval⟩
  refine ⟨⟨(c.private_key.val : ZMod n), modInverse n c.private_key.val⟩, ?_, ?_⟩
  · simp [CreateFromKey, GetPrivateKeyBytes, scalarDecode, natToBE_length,
      bytesToNat_natToBE _ _ hlt, hk, Nat.not_le.mpr hval,
      ZMod.natCast_val, ZMod.cast_id]
  · intro p
    simp [Encrypt, ZMod.natCast_val, ZMod.cast_id]

theorem createFromKey_getPrivateKeyBytes_roundtrip_witness :
    ∃ c', CreateFromKey 7 (GetPrivateKeyBytes (⟨3, 5⟩ : ECCommutativeCipher 7)) =
        .ok c' ∧
      ∀ p, Encrypt c' p = Encrypt (⟨3, 5⟩ : ECCommutativeCipher 7) p :=
  createFromKey_getPrivateKeyBytes_roundtrip 7 (by decide) ⟨3, 5⟩ (by decide)

/-- C8: FixedBaseExp construction failure reporting — when the
underlying arithmetic library cannot build the group/ring context for
the modulus, `GetFixedBaseExp` itself fails with an internal error and
no instance is produced; when it can, construction succeeds and no later
`ModExp` call ever reports an internal failure (failure is never
deferred to first use). -/
theorem getFixedBaseExp_reports_context_failure_at_construction
    (fixed_base modulus : Nat) (two_k_ary : Bool) (window : Nat) :
    GetFixedBaseExp false fixed_base modulus two_k_ary window =
        .error .internal ∧
      ∃ f, GetFixedBaseExp true fixed_base modulus two_k_ary window = .ok f ∧
        ∀ exp : Int, f.ModExp exp ≠ .error .internal := by
  refine ⟨rfl, ⟨fixed_base, modulus, two_k_ary, window⟩, rfl, ?_⟩
  intro exp
  unfold FixedBaseExp.ModExp
  by_cases h : exp < 0
  · simp [h]
  · by_cases ht : two_k_ary <;> simp [h, ht]

/-- C9: Strategy equivalence — for a fixed `(base, modulus)` pair and
any exponent, the windowed (2^k-ary) strategy and the baseline strategy
return the same `ModExp` result, so the strategy selected at
construction is not observable in any `ModExp` result. -/
theorem modExp_strategy_equivalence (base modulus w : Nat) (hw : 0 < w)
    (exp : Int) :
    FixedBaseExp.ModExp ⟨base, modulus, true, w⟩ exp =
      FixedBaseExp.ModExp ⟨base, modulus, false, w⟩ exp := by
  unfold FixedBaseExp.ModExp
  by_cases h : exp < 0
  · simp [h]
  · simp [h, windowedExp_eq_baselineExp _ _ _ _ hw, baselineExp]

theorem modExp_strategy_equivalence_witness :
    FixedBaseExp.ModExp ⟨2, 5, true, 1⟩ 6 =
      FixedBaseExp.ModExp ⟨2, 5, false, 1⟩ 6 :=
  modExp_strategy_equivalence 2 5 1 (by decide) 6

/-- C10: Implicit inverse round-trip — for every cipher instance and
every byte string `b` that is a valid compressed encoding of a point on
the bound curve, `ReEncrypt` succeeds on `b` and `Decrypt` of the result
succeeds and returns `b` itself, because multiplication by `k` followed
by multiplication by the stored `k^-1 mod n` is the identity on the
group. -/
theorem decrypt_reEncrypt_identity (n : Nat) (hn : 0 < n)
    (c : ECCommutativeCipher n) (hk : c.KeyInvariant) (b : List Nat)
    (P : ZMod n) (hdec : pointDecode n b = some P)
    (hb : ∀ d ∈ b, d < 256) :
    ∃ r, ReEncrypt c b = .ok r ∧ Decrypt c r = .ok b := by
  refine ⟨pointEncode n (c.private_key * P), ?_, ?_⟩
  · simp [ReEncrypt, hdec]
  · simp only [Decrypt, pointDecode_pointEncode n hn]
    have h : c.private_key_inverse * (c.private_key * P) = P := by
      rw [← mul_assoc, mul_comm c.private_key_inverse, hk, one_mul]
    rw [h, pointEncode_pointDecode n b P hdec hb]

theorem decrypt_reEncrypt_identity_witness :
    ∃ r, ReEncrypt (⟨3, 5⟩ : ECCommutativeCipher 7) [2, 6] = .ok r ∧
      Decrypt (⟨3, 5⟩ : ECCommutativeCipher 7) r = .ok [2, 6] :=
  decrypt_reEncrypt_identity 7 (by decide) ⟨3, 5⟩ (by decide) [2, 6] 6
    (by decide) (by decide)

end PrivateJoinAndCompute
